import Mathlib

/-!
Verification of the ordered-container (kanban reordering) core and the
websocket fan-out layer of the simple-kanban repository.

The ordering-relevant fields of the persisted models are embedded as Lean
structures; each API operation's position handling is translated from
`src/api/tasks.py` and `src/api/columns.py`; the connection registry and
broadcast paths are translated from `src/websocket/manager.py` and
`src/websocket/events.py`.  Positions are Python ints, embedded as `Int`.
-/

namespace Kanban

/-- Ordering-relevant fields of the `Task` model (`src/models/task.py`):
`id`, `column_id` (the enclosing container) and `position`. -/
structure Task where
  id : Nat
  column_id : Nat
  position : Int
  deriving DecidableEq, Repr

/-- Ordering-relevant fields of the `Column` model (`src/models/column.py`):
`id`, `board_id` (the enclosing container) and `position`. -/
structure Column where
  id : Nat
  board_id : Nat
  position : Int
  deriving DecidableEq, Repr

/-- The tasks of one column, in table order (`select(Task).where(Task.column_id == ...)`). -/
def tasksInColumn (ts : List Task) (cid : Nat) : List Task :=
  ts.filter (fun t => t.column_id == cid)

/-- The columns of one board. -/
def columnsInBoard (cols : List Column) (bid : Nat) : List Column :=
  cols.filter (fun c => c.board_id == bid)

/-- `create_task` (`src/api/tasks.py` lines 64-89): when no position is
supplied the new task is appended at `position = count of tasks in the
column`; when a position is supplied it is used verbatim — the code
performs no clamping and shifts no existing task. -/
def create_task (ts : List Task) (cid : Nat) (posGiven : Option Int) (newId : Nat) :
    List Task :=
  let p : Int :=
    match posGiven with
    | none => ((tasksInColumn ts cid).length : Int)
    | some p => p
  ts ++ [⟨newId, cid, p⟩]

/-- `update_task` position handling (`src/api/tasks.py` lines 173-199): if the
task exists and the new position differs from the old, every other task of the
same column with `old_position < position <= new_position` (forward move) is
decremented, resp. `new_position <= position < old_position` (backward move)
incremented, and the task itself is set to the new position.  A missing task
is a 404 before any shift; equal positions change nothing. -/
def update_task (ts : List Task) (tid : Nat) (newPos : Int) : List Task :=
  match ts.find? (fun t => t.id == tid) with
  | none => ts
  | some t0 =>
    let oldPos := t0.position
    if oldPos = newPos then ts
    else
      ts.map (fun u =>
        if u.id = tid then { u with position := newPos }
        else if u.column_id = t0.column_id then
          if newPos > oldPos then
            if oldPos < u.position ∧ u.position ≤ newPos then
              { u with position := u.position - 1 } else u
          else
            if newPos ≤ u.position ∧ u.position < oldPos then
              { u with position := u.position + 1 } else u
        else u)

/-- `move_task` (`src/api/tasks.py` lines 225-319).  Same-column moves run the
`update_task` shift; cross-column moves decrement the source tasks above the
vacated position, increment the destination tasks at or above the target
position, and finally set the task's `column_id` together with its
`position`. -/
def move_task (ts : List Task) (tid : Nat) (newCol : Nat) (newPos : Int) :
    List Task :=
  match ts.find? (fun t => t.id == tid) with
  | none => ts
  | some t0 =>
    let oldCol := t0.column_id
    let oldPos := t0.position
    if oldCol = newCol then
      if newPos ≠ oldPos then
        ts.map (fun u =>
          let u1 :=
            if u.column_id = oldCol then
              if newPos > oldPos then
                if oldPos < u.position ∧ u.position ≤ newPos then
                  { u with position := u.position - 1 } else u
              else
                if newPos ≤ u.position ∧ u.position < oldPos then
                  { u with position := u.position + 1 } else u
            else u
          if u.id = tid then { u1 with position := newPos } else u1)
      else ts
    else
      ts.map (fun u =>
        if u.id = tid then { u with column_id := newCol, position := newPos }
        else if u.column_id = oldCol ∧ u.position > oldPos then
          { u with position := u.position - 1 }
        else if u.column_id = newCol ∧ u.position ≥ newPos then
          { u with position := u.position + 1 }
        else u)

/-- `delete_task` (`src/api/tasks.py` lines 322-350): delete the task, then
decrement every remaining task of the same column whose position is above the
vacated one. -/
def delete_task (ts : List Task) (tid : Nat) : List Task :=
  match ts.find? (fun t => t.id == tid) with
  | none => ts
  | some t0 =>
    (ts.filter (fun u => u.id != tid)).map (fun u =>
      if u.column_id = t0.column_id ∧ u.position > t0.position then
        { u with position := u.position - 1 } else u)

/-- `create_column` (`src/api/columns.py` lines 24-40): the position is a
required field of `ColumnCreate` and is stored verbatim; nothing is shifted
or clamped. -/
def create_column (cols : List Column) (bid : Nat) (pos : Int) (newId : Nat) :
    List Column :=
  cols ++ [⟨newId, bid, pos⟩]

/-- `update_column` (`src/api/columns.py` lines 118-136): a supplied position
is stored verbatim on the column; no other column moves. -/
def update_column (cols : List Column) (cid : Nat) (newPosGiven : Option Int) :
    List Column :=
  match cols.find? (fun c => c.id == cid) with
  | none => cols
  | some _ =>
    cols.map (fun c =>
      if c.id = cid then
        match newPosGiven with
        | some p => { c with position := p }
        | none => c
      else c)

/-- `delete_column` (`src/api/columns.py` lines 139-149): the column is
deleted; the positions of the board's remaining columns are not touched. -/
def delete_column (cols : List Column) (cid : Nat) : List Column :=
  cols.filter (fun c => c.id != cid)

/-- `reorder_column` (`src/api/columns.py` lines 152-190): shift every column
of the board lying between the old and the new position, then set the moved
column to the new position.  The loop runs over all columns of the board; the
moved column itself never satisfies either shift condition and its position is
overwritten afterwards. -/
def reorder_column (cols : List Column) (cid : Nat) (newPos : Int) : List Column :=
  match cols.find? (fun c => c.id == cid) with
  | none => cols
  | some c0 =>
    let oldPos := c0.position
    cols.map (fun u =>
      let u1 :=
        if u.board_id = c0.board_id then
          if newPos > oldPos then
            if oldPos < u.position ∧ u.position ≤ newPos then
              { u with position := u.position - 1 } else u
          else
            if newPos ≤ u.position ∧ u.position < oldPos then
              { u with position := u.position + 1 } else u
        else u
      if u.id = cid then { u1 with position := newPos } else u1)

/-! ## Websocket layer (`src/websocket/manager.py`, `src/websocket/events.py`)

The registry `_connections : Dict[int, Set[WebSocket]]` is embedded as an
association list from board id to a duplicate-free list of connection ids;
the single-threaded cooperative scheduler makes every registry mutation
atomic, so plain state passing is a faithful embedding.  Wall-clock time
(`datetime.utcnow`) is an explicit `Nat` parameter. -/

/-- The registry: board id paired with that board's set of websocket
connection ids (a Python `set`, modelled as a duplicate-free list). -/
abbrev Registry := List (Nat × List Nat)

/-- Dictionary lookup `self._connections.get(board_id)`. -/
def lookupBoard (conns : Registry) (bid : Nat) : Option (List Nat) :=
  (conns.find? (fun e => e.1 == bid)).map Prod.snd

/-- Dictionary update `self._connections[board_id] = ws`. -/
def setBoard (conns : Registry) (bid : Nat) (ws : List Nat) : Registry :=
  conns.map (fun e => if e.1 = bid then (bid, ws) else e)

/-- Dictionary deletion `del self._connections[board_id]`. -/
def delBoard (conns : Registry) (bid : Nat) : Registry :=
  conns.filter (fun e => e.1 != bid)

/-- `connect` (`manager.py` lines 95-117): create the board's entry when
absent, then `set.add` the websocket. -/
def connect (conns : Registry) (ws : Nat) (bid : Nat) : Registry :=
  match lookupBoard conns bid with
  | none => conns ++ [(bid, [ws])]
  | some s => setBoard conns bid (if ws ∈ s then s else s ++ [ws])

/-- `disconnect` (`manager.py` lines 119-132): if the board has an entry,
`set.discard` the websocket and delete the entry when the set is now empty;
a missing entry or a websocket not in the set raises nothing. -/
def disconnect (conns : Registry) (ws : Nat) (bid : Nat) : Registry :=
  match lookupBoard conns bid with
  | none => conns
  | some s =>
    let s2 := s.filter (fun w => w != ws)
    if s2.isEmpty then delBoard conns bid else setBoard conns bid s2

/-- `_broadcast_to_local` (`manager.py` lines 158-177): iterate the board's
subscriber set, attempting a send to each; the sockets whose send raises
(`sendOk w = false`) are discarded from the set afterwards.  Returns the
attempted recipients and the pruned registry; an emptied entry is not
deleted. -/
def broadcastToLocal (conns : Registry) (bid : Nat) (sendOk : Nat → Bool) :
    List Nat × Registry :=
  match lookupBoard conns bid with
  | none => ([], conns)
  | some s => (s, setBoard conns bid (s.filter sendOk))

/-- `BoardEvent` (`events.py` lines 41-62): event type, board scope, payload,
optional actor and a timestamp. -/
structure BoardEvent where
  event_type : String
  board_id : Nat
  data : List (String × String)
  user_id : Option Nat
  timestamp : Nat
  deriving DecidableEq, Repr

/-- `BoardEvent.__init__` (`events.py` lines 59-62): when no timestamp is
passed the event is stamped with the current clock `datetime.utcnow()`. -/
def mkBoardEvent (et : String) (bid : Nat) (payload : List (String × String))
    (uid : Option Nat) (tsGiven : Option Nat) (now : Nat) : BoardEvent :=
  { event_type := et, board_id := bid, data := payload, user_id := uid,
    timestamp := tsGiven.getD now }

/-- The wire record produced by `BoardEvent.to_json` (`events.py` lines
64-72); it carries all five fields, the timestamp included. -/
structure EventWire where
  event_type : String
  board_id : Nat
  data : List (String × String)
  user_id : Option Nat
  timestamp : Nat
  deriving DecidableEq, Repr

/-- `to_json` (`events.py` lines 64-72). -/
def BoardEvent.to_json (e : BoardEvent) : EventWire :=
  { event_type := e.event_type, board_id := e.board_id, data := e.data,
    user_id := e.user_id, timestamp := e.timestamp }

/-- The event reconstruction inside `_listen_for_events` (`manager.py` lines
190-196): a `BoardEvent` is rebuilt from the deserialized wire record passing
`event_type`, `board_id`, `data` and `user_id` — the wire timestamp is not
passed, so `__init__` stamps the listener's current clock. -/
def listenReconstruct (w : EventWire) (now : Nat) : BoardEvent :=
  mkBoardEvent w.event_type w.board_id w.data w.user_id none now

/-- Manager state (`manager.py` lines 32-38): the registry plus whether
`_redis_client` is set, whether `_pubsub` is set, and `_running`. -/
structure ManagerState where
  connections : Registry
  redisClient : Bool
  pubsub : Bool
  running : Bool
  deriving DecidableEq, Repr

/-- `start` (`manager.py` lines 40-64): `redis.from_url` is assigned to
`_redis_client` before `ping()` runs, so a failing ping (broker unreachable)
still leaves `_redis_client` set; any failure is caught and the manager ends
with `_running = True` (local-only mode).  `fromUrlOk` and `pingOk` say which
of the two fallible steps succeed; a `pubsub.subscribe` failure behaves like
a failing ping with `_pubsub` also set. -/
def ManagerState.start (st : ManagerState) (fromUrlOk pingOk : Bool) :
    ManagerState :=
  if st.running then st
  else if fromUrlOk then
    if pingOk then { st with redisClient := true, pubsub := true, running := true }
    else { st with redisClient := true, pubsub := false, running := true }
  else { st with redisClient := false, running := true }

/-- Result of one `broadcast_event` call: whether the event went out via the
broker, the attempted local sends, and the registry afterwards. -/
structure BroadcastResult where
  published : Bool
  localSends : List Nat
  conns : Registry
  deriving DecidableEq, Repr

/-- `broadcast_event` (`manager.py` lines 134-156): with `_redis_client` set
the event is published and the call returns (the listener handles local
delivery); a failed publish is caught and falls through to the local
broadcast; without a client the local broadcast runs directly. -/
def broadcast_event (st : ManagerState) (ev : BoardEvent) (publishOk : Bool)
    (sendOk : Nat → Bool) : BroadcastResult :=
  if st.redisClient then
    if publishOk then
      { published := true, localSends := [], conns := st.connections }
    else
      let r := broadcastToLocal st.connections ev.board_id sendOk
      { published := false, localSends := r.1, conns := r.2 }
  else
    let r := broadcastToLocal st.connections ev.board_id sendOk
    { published := false, localSends := r.1, conns := r.2 }

/-! ## Density of position sequences (spec invariant I1) -/

/-- The multiset of positions of one column's tasks. -/
def posMS (ts : List Task) (cid : Nat) : Multiset Int :=
  ((tasksInColumn ts cid).map Task.position : List Int)

/-- The multiset of positions of one board's columns. -/
def colPosMS (cols : List Column) (bid : Nat) : Multiset Int :=
  ((columnsInBoard cols bid).map Column.position : List Int)

/-- The multiset `{0, 1, ..., n-1}` of integers. -/
def intRange (n : Nat) : Multiset Int :=
  Multiset.map (fun k : Nat => (k : Int)) (Multiset.range n)

/-- Invariant I1: a container's positions are exactly `{0, ..., N-1}` for N
its item count — no gaps, no duplicates. -/
def Dense (s : Multiset Int) : Prop := s = intRange (Multiset.card s)

instance (s : Multiset Int) : Decidable (Dense s) := by
  unfold Dense; infer_instance

/-- The shift the relocation code applies to the position of every other item
of the container (forward move decrements the items strictly between, the
target included; backward move increments). -/
def relocShiftFun (oldPos newPos x : Int) : Int :=
  if newPos > oldPos then (if oldPos < x ∧ x ≤ newPos then x - 1 else x)
  else (if newPos ≤ x ∧ x < oldPos then x + 1 else x)

/-- The full position permutation a relocation induces on the container: the
moved item (the one at `oldPos`) goes to `newPos`, the rest shift. -/
def relocPerm (oldPos newPos x : Int) : Int :=
  if x = oldPos then newPos else relocShiftFun oldPos newPos x

/-- The shift a removal applies to the remaining items of the container. -/
def downShiftFun (oldPos x : Int) : Int :=
  if x > oldPos then x - 1 else x

/-- The insert operation as the spec describes it (§4.1): with no position,
append at `count`; with a desired position, clamp it to `[0, count]`, shift
every existing item of the container with `position >= desired` up by one,
then give the new item the clamped position.  Stated from the spec's words,
for comparison with `create_task`. -/
def spec_insert (ts : List Task) (cid : Nat) (posGiven : Option Int)
    (newId : Nat) : List Task :=
  let cnt : Int := (tasksInColumn ts cid).length
  match posGiven with
  | none => ts ++ [⟨newId, cid, cnt⟩]
  | some d =>
    let d2 := max 0 (min d cnt)
    (ts.map (fun t =>
      if t.column_id = cid ∧ t.position ≥ d2 then
        { t with position := t.position + 1 } else t)) ++ [⟨newId, cid, d2⟩]

/-- The shift an insertion applies to the existing items of the container. -/
def upShiftFun (newPos x : Int) : Int :=
  if x ≥ newPos then x + 1 else x

theorem mem_intRange {a : Int} {n : Nat} : a ∈ intRange n ↔ 0 ≤ a ∧ a < n := by
  unfold intRange
  simp only [Multiset.mem_map, Multiset.mem_range]
  constructor
  · rintro ⟨k, hk, rfl⟩
    exact ⟨by omega, by omega⟩
  · rintro ⟨h0, hn⟩
    exact ⟨a.toNat, by omega, by omega⟩

theorem card_intRange (n : Nat) : Multiset.card (intRange n) = n := by
  unfold intRange
  rw [Multiset.card_map, Multiset.card_range]

theorem nodup_intRange (n : Nat) : (intRange n).Nodup :=
  (Multiset.nodup_range n).map Nat.cast_injective

theorem intRange_succ (n : Nat) : intRange (n + 1) = (n : Int) ::ₘ intRange n := by
  unfold intRange
  rw [Multiset.range_succ, Multiset.map_cons]

theorem dense_of_eq_intRange {s : Multiset Int} {n : Nat}
    (h : s = intRange n) : Dense s := by
  unfold Dense
  rw [h, card_intRange]

/-- A map that is injective on `{0..n-1}` and sends it into itself permutes
`intRange n`. -/
theorem map_intRange_eq (f : Int → Int) (n : Nat)
    (hmap : ∀ x : Int, 0 ≤ x → x < n → 0 ≤ f x ∧ f x < n)
    (hinj : ∀ x y : Int, 0 ≤ x → x < n → 0 ≤ y → y < n → f x = f y → x = y) :
    (intRange n).map f = intRange n := by
  have hnd : ((intRange n).map f).Nodup := by
    refine (nodup_intRange n).map_on ?_
    intro x hx y hy hxy
    rw [mem_intRange] at hx hy
    exact hinj x y hx.1 hx.2 hy.1 hy.2 hxy
  have hsub : (intRange n).map f ⊆ intRange n := by
    intro a ha
    rw [Multiset.mem_map] at ha
    obtain ⟨x, hx, rfl⟩ := ha
    rw [mem_intRange] at hx ⊢
    exact hmap x hx.1 hx.2
  refine Multiset.eq_of_le_of_card_le ((Multiset.le_iff_subset hnd).mpr hsub) ?_
  rw [Multiset.card_map]

/-- Relocating within a dense container permutes the positions. -/
theorem relocPerm_intRange (p q : Int) (n : Nat)
    (hp0 : 0 ≤ p) (hpn : p < n) (hq0 : 0 ≤ q) (hqn : q < n) :
    (intRange n).map (relocPerm p q) = intRange n := by
  apply map_intRange_eq
  · intro x h0 h1
    unfold relocPerm relocShiftFun
    split_ifs <;> omega
  · intro x y hx0 hx1 hy0 hy1 h
    unfold relocPerm relocShiftFun at h
    split_ifs at h <;> omega

/-- Removing position `p` from a dense container and closing the gap yields a
dense container again. -/
theorem downShift_erase_intRange (p : Int) (n : Nat)
    (h0 : 0 ≤ p) (hn : p < n + 1) :
    ((intRange (n + 1)).erase p).map (downShiftFun p) = intRange n := by
  have hp : p ∈ intRange (n + 1) := mem_intRange.mpr ⟨h0, by exact_mod_cast hn⟩
  have hnder : ((intRange (n + 1)).erase p).Nodup :=
    (nodup_intRange (n + 1)).erase p
  have hmem : ∀ x ∈ (intRange (n + 1)).erase p, x ≠ p ∧ 0 ≤ x ∧ x < n + 1 := by
    intro x hx
    rw [(nodup_intRange (n + 1)).mem_erase_iff, mem_intRange] at hx
    exact ⟨hx.1, by exact_mod_cast hx.2⟩
  have hnd : (((intRange (n + 1)).erase p).map (downShiftFun p)).Nodup := by
    refine hnder.map_on ?_
    intro x hx y hy hxy
    obtain ⟨hxp, hx0, hx1⟩ := hmem x hx
    obtain ⟨hyp, hy0, hy1⟩ := hmem y hy
    unfold downShiftFun at hxy
    split_ifs at hxy <;> omega
  have hsub : ((intRange (n + 1)).erase p).map (downShiftFun p) ⊆ intRange n := by
    intro a ha
    rw [Multiset.mem_map] at ha
    obtain ⟨x, hx, rfl⟩ := ha
    obtain ⟨hxp, hx0, hx1⟩ := hmem x hx
    rw [mem_intRange]
    unfold downShiftFun
    split_ifs <;> omega
  refine Multiset.eq_of_le_of_card_le ((Multiset.le_iff_subset hnd).mpr hsub) ?_
  rw [Multiset.card_map, Multiset.card_erase_of_mem hp, card_intRange,
    card_intRange]
  simp

/-- Inserting at position `q` of a dense container, shifting the tail up,
yields a dense container again. -/
theorem upShift_cons_intRange (q : Int) (n : Nat) (h0 : 0 ≤ q) (hn : q ≤ n) :
    q ::ₘ (intRange n).map (upShiftFun q) = intRange (n + 1) := by
  have hmem : ∀ x ∈ intRange n, 0 ≤ x ∧ x < n := by
    intro x hx
    have := mem_intRange.mp hx
    exact ⟨this.1, by exact_mod_cast this.2⟩
  have hnotmem : q ∉ (intRange n).map (upShiftFun q) := by
    rw [Multiset.mem_map]
    rintro ⟨x, hx, hxq⟩
    obtain ⟨hx0, hx1⟩ := hmem x hx
    unfold upShiftFun at hxq
    split_ifs at hxq <;> omega
  have hnd : (q ::ₘ (intRange n).map (upShiftFun q)).Nodup := by
    rw [Multiset.nodup_cons]
    refine ⟨hnotmem, (nodup_intRange n).map_on ?_⟩
    intro x hx y hy hxy
    obtain ⟨hx0, hx1⟩ := hmem x hx
    obtain ⟨hy0, hy1⟩ := hmem y hy
    unfold upShiftFun at hxy
    split_ifs at hxy <;> omega
  have hsub : (q ::ₘ (intRange n).map (upShiftFun q)) ⊆ intRange (n + 1) := by
    intro a ha
    rw [Multiset.mem_cons] at ha
    rcases ha with rfl | ha
    · rw [mem_intRange]
      constructor
      · exact h0
      · push_cast
        omega
    · rw [Multiset.mem_map] at ha
      obtain ⟨x, hx, rfl⟩ := ha
      obtain ⟨hx0, hx1⟩ := hmem x hx
      rw [mem_intRange]
      unfold upShiftFun
      constructor
      · split_ifs <;> omega
      · push_cast
        split_ifs <;> omega
  refine Multiset.eq_of_le_of_card_le ((Multiset.le_iff_subset hnd).mpr hsub) ?_
  rw [Multiset.card_cons, Multiset.card_map, card_intRange, card_intRange]

/-! ## List plumbing: isolating the unique item carrying a given id -/

/-- Two members of a list with duplicate-free keys sharing a key coincide. -/
theorem eq_of_mem_of_key {α : Type} (idf : α → Nat) {l : List α}
    (hnd : (l.map idf).Nodup) {u v : α} (hu : u ∈ l) (hv : v ∈ l)
    (h : idf u = idf v) : u = v :=
  List.inj_on_of_nodup_map hnd hu hv h

/-- Splitting the unique element with key `tid` out of a filtered list, at
the multiset level. -/
theorem filter_key_cons {α : Type} (idf : α → Nat) (tid : Nat)
    (l : List α) (t0 : α) (hmem : t0 ∈ l) (hid : idf t0 = tid)
    (hnd : (l.map idf).Nodup) (P : α → Bool) (hP : P t0 = true) :
    (↑(l.filter P) : Multiset α) =
      t0 ::ₘ (↑((l.filter (fun u => idf u != tid)).filter P) : Multiset α) := by
  induction l with
  | nil => cases hmem
  | cons h t ih =>
    rw [List.map_cons, List.nodup_cons] at hnd
    by_cases hh : idf h = tid
    · have ht0 : t0 = h := by
        rcases List.mem_cons.mp hmem with hcase | hmt2
        · exact hcase
        · exfalso
          apply hnd.1
          rw [hh, ← hid]
          exact List.mem_map_of_mem idf hmt2
      have h1 : (h :: t).filter (fun u => idf u != tid) =
          t.filter (fun u => idf u != tid) :=
        List.filter_cons_of_neg (by simp [hh])
      have h2 : t.filter (fun u => idf u != tid) = t := by
        refine List.filter_eq_self.mpr ?_
        intro u hu
        have hne : idf u ≠ tid := by
          intro he
          apply hnd.1
          rw [hh, ← he]
          exact List.mem_map_of_mem idf hu
        simpa using hne
      subst ht0
      rw [h1, h2, List.filter_cons_of_pos hP, ← Multiset.cons_coe]
    · have hmt : t0 ∈ t := by
        rcases List.mem_cons.mp hmem with hcase | hmt2
        · exact absurd (hcase ▸ hid) hh
        · exact hmt2
      have ihx := ih hmt hnd.2
      have h1 : (h :: t).filter (fun u => idf u != tid) =
          h :: t.filter (fun u => idf u != tid) :=
        List.filter_cons_of_pos (by simpa using hh)
      by_cases hPh : P h = true
      · have h2 : (h :: t).filter P = h :: t.filter P :=
          List.filter_cons_of_pos hPh
        have h3 : (h :: t.filter (fun u => idf u != tid)).filter P =
            h :: (t.filter (fun u => idf u != tid)).filter P :=
          List.filter_cons_of_pos hPh
        rw [h2, h1, h3, ← Multiset.cons_coe, ← Multiset.cons_coe, ihx,
          Multiset.cons_swap]
      · have h2 : (h :: t).filter P = t.filter P :=
          List.filter_cons_of_neg (by simpa using hPh)
        have h3 : (h :: t.filter (fun u => idf u != tid)).filter P =
            (t.filter (fun u => idf u != tid)).filter P :=
          List.filter_cons_of_neg (by simpa using hPh)
        rw [h2, h1, h3, ihx]

/-- A list with duplicate-free keys is, as a multiset, the element with key
`tid` prepended to the rest. -/
theorem coe_eq_cons_of_key {α : Type} (idf : α → Nat) (tid : Nat)
    (l : List α) (t0 : α) (hmem : t0 ∈ l) (hid : idf t0 = tid)
    (hnd : (l.map idf).Nodup) :
    (↑l : Multiset α) =
      t0 ::ₘ (↑(l.filter (fun u => idf u != tid)) : Multiset α) := by
  have h := filter_key_cons idf tid l t0 hmem hid hnd (fun _ => true) rfl
  simpa using h

/-- What a successful `find?` on the id yields. -/
theorem find?_task_props {ts : List Task} {tid : Nat} {t0 : Task}
    (h : ts.find? (fun t => t.id == tid) = some t0) : t0 ∈ ts ∧ t0.id = tid :=
  ⟨List.mem_of_find?_eq_some h, by simpa using List.find?_some h⟩

/-- What a successful `find?` on the column id yields. -/
theorem find?_column_props {cols : List Column} {cid : Nat} {c0 : Column}
    (h : cols.find? (fun c => c.id == cid) = some c0) : c0 ∈ cols ∧ c0.id = cid :=
  ⟨List.mem_of_find?_eq_some h, by simpa using List.find?_some h⟩

/-- The positions of one column after a column-preserving rewrite of the
task table. -/
theorem posMS_map_of_col (ts : List Task) (F : Task → Task) (cid : Nat)
    (hcol : ∀ t ∈ ts, (F t).column_id = t.column_id) :
    posMS (ts.map F) cid =
      ↑((ts.filter (fun t => t.column_id == cid)).map (Task.position ∘ F)) := by
  unfold posMS tasksInColumn
  rw [List.filter_map, List.map_map]
  congr 2
  apply List.filter_congr
  intro t ht
  simp only [Function.comp_apply, hcol t ht]

/-- Two filters of the same list commute. -/
theorem filter_swap {α : Type} (p q : α → Bool) (l : List α) :
    (l.filter p).filter q = (l.filter q).filter p := by
  rw [List.filter_filter, List.filter_filter]
  exact List.filter_congr fun a _ => Bool.and_comm _ _

/-- Filtering keeps the keys duplicate-free. -/
theorem nodup_key_filter {α : Type} (idf : α → Nat) (P : α → Bool)
    (l : List α) (hnd : (l.map idf).Nodup) : ((l.filter P).map idf).Nodup :=
  List.Nodup.sublist ((l.filter_sublist).map idf) hnd

/-- The positions of one column, with the position of the task `tid` split
off in front. -/
theorem posMS_cons_key (ts : List Task) (tid : Nat) (t0 : Task)
    (hmem : t0 ∈ ts) (hid : t0.id = tid) (hnd : (ts.map Task.id).Nodup)
    (cid : Nat) (hcol : t0.column_id = cid) :
    posMS ts cid =
      t0.position ::ₘ
        Multiset.map Task.position
          (↑((ts.filter (fun t => t.column_id == cid)).filter
            (fun u => u.id != tid)) : Multiset Task) := by
  unfold posMS tasksInColumn
  rw [← Multiset.map_coe,
    coe_eq_cons_of_key Task.id tid (ts.filter (fun t => t.column_id == cid)) t0
      (List.mem_filter.mpr ⟨hmem, by simp [hcol]⟩) hid
      (nodup_key_filter _ _ _ hnd),
    Multiset.map_cons]

/-- The positions of one board's columns, with the position of the column
`cid` split off in front. -/
theorem colPosMS_cons_key (cols : List Column) (cid : Nat) (c0 : Column)
    (hmem : c0 ∈ cols) (hid : c0.id = cid) (hnd : (cols.map Column.id).Nodup)
    (bid : Nat) (hb : c0.board_id = bid) :
    colPosMS cols bid =
      c0.position ::ₘ
        Multiset.map Column.position
          (↑((cols.filter (fun c => c.board_id == bid)).filter
            (fun u => u.id != cid)) : Multiset Column) := by
  unfold colPosMS columnsInBoard
  rw [← Multiset.map_coe,
    coe_eq_cons_of_key Column.id cid (cols.filter (fun c => c.board_id == bid)) c0
      (List.mem_filter.mpr ⟨hmem, by simp [hb]⟩) hid
      (nodup_key_filter _ _ _ hnd),
    Multiset.map_cons]

/-- The positions of one board's columns after a board-preserving rewrite of
the column table. -/
theorem colPosMS_map_of_board (cols : List Column) (F : Column → Column)
    (bid : Nat) (hb : ∀ c ∈ cols, (F c).board_id = c.board_id) :
    colPosMS (cols.map F) bid =
      ↑((cols.filter (fun c => c.board_id == bid)).map (Column.position ∘ F)) := by
  unfold colPosMS columnsInBoard
  rw [List.filter_map, List.map_map]
  congr 2
  apply List.filter_congr
  intro c hc
  simp only [Function.comp_apply, hb c hc]

/-! ## Density preservation of the individual operations -/

/-- Appending one task adds its position to its own column's multiset. -/
theorem posMS_append (ts : List Task) (t : Task) (cid : Nat) :
    posMS (ts ++ [t]) cid =
      posMS ts cid +
        (if t.column_id = cid then ({t.position} : Multiset Int) else 0) := by
  unfold posMS tasksInColumn
  rw [List.filter_append, List.map_append, ← Multiset.coe_add]
  congr 1
  by_cases h : t.column_id = cid
  · simp [h]
  · simp [h]

/-- `create_task` without an explicit position appends at `count`, keeping
the column dense. -/
theorem create_task_none_dense (ts : List Task) (cid nid : Nat)
    (hd : Dense (posMS ts cid)) :
    Dense (posMS (create_task ts cid none nid) cid) := by
  have hlen : (tasksInColumn ts cid).length = Multiset.card (posMS ts cid) := by
    unfold posMS
    rw [Multiset.coe_card, List.length_map]
  apply dense_of_eq_intRange (n := Multiset.card (posMS ts cid) + 1)
  unfold Dense at hd
  simp only [create_task]
  rw [posMS_append, if_pos rfl, add_comm, Multiset.singleton_add, hlen, hd,
    card_intRange, ← intRange_succ]

/-- `delete_task` keeps the vacated column dense: the remaining positions
are the old ones with the vacated position removed and the tail shifted
down. -/
theorem delete_task_dense (ts : List Task) (tid : Nat) (t0 : Task)
    (hfind : ts.find? (fun t => t.id == tid) = some t0)
    (hnd : (ts.map Task.id).Nodup)
    (hd : Dense (posMS ts t0.column_id)) :
    Dense (posMS (delete_task ts tid) t0.column_id) := by
  obtain ⟨hmem, hid⟩ := find?_task_props hfind
  have hG : ∀ u : Task,
      (if u.column_id = t0.column_id ∧ u.position > t0.position then
        { u with position := u.position - 1 } else u).column_id = u.column_id := by
    intro u
    split_ifs <;> rfl
  simp only [delete_task, hfind]
  rw [posMS_map_of_col _ _ _ (fun u _ => hG u), filter_swap]
  set rest := (ts.filter (fun t => t.column_id == t0.column_id)).filter
    (fun u => u.id != tid) with hrest
  have hptw : rest.map (Task.position ∘ fun u =>
      if u.column_id = t0.column_id ∧ u.position > t0.position then
        { u with position := u.position - 1 } else u) =
      (rest.map Task.position).map (downShiftFun t0.position) := by
    rw [List.map_map]
    refine List.map_congr_left ?_
    intro u hu
    have hcol : u.column_id = t0.column_id := by
      have := (List.mem_filter.mp ((List.mem_filter.mp hu).1)).2
      simpa using this
    simp only [Function.comp_apply]
    by_cases hgt : u.position > t0.position
    · rw [if_pos ⟨hcol, hgt⟩]
      simp [downShiftFun, hgt]
    · rw [if_neg (fun hc => hgt hc.2)]
      simp [downShiftFun, hgt]
  have hanchor := posMS_cons_key ts tid t0 hmem hid hnd t0.column_id rfl
  set X := Multiset.map Task.position
    (↑((ts.filter (fun t => t.column_id == t0.column_id)).filter
      (fun u => u.id != tid)) : Multiset Task) with hX
  set n := Multiset.card X with hn
  have hcard : Multiset.card (posMS ts t0.column_id) = n + 1 := by
    rw [hanchor, Multiset.card_cons]
  unfold Dense at hd
  rw [hcard] at hd
  have hconsX : t0.position ::ₘ X = intRange (n + 1) := hanchor.symm.trans hd
  have hXer : X = (intRange (n + 1)).erase t0.position := by
    rw [← hconsX, Multiset.erase_cons_head]
  have hpmem : t0.position ∈ intRange (n + 1) := by
    rw [← hconsX]
    exact Multiset.mem_cons_self _ _
  have hpb := mem_intRange.mp hpmem
  apply dense_of_eq_intRange (n := n)
  rw [hptw, ← Multiset.map_coe, ← Multiset.map_coe, ← hX, hXer]
  exact downShift_erase_intRange t0.position n hpb.1 (by
    have := hpb.2
    push_cast at this ⊢
    omega)

/-- Mapping a list with duplicate-free keys, with the image of the element
carrying key `tid` split off in front. -/
theorem coe_map_cons_key {α β : Type} (idf : α → Nat) (tid : Nat)
    (l : List α) (t0 : α) (hmem : t0 ∈ l) (hid : idf t0 = tid)
    (hnd : (l.map idf).Nodup) (f : α → β) :
    (↑(l.map f) : Multiset β) =
      f t0 ::ₘ (↑((l.filter (fun u => idf u != tid)).map f) : Multiset β) := by
  rw [← Multiset.map_coe, coe_eq_cons_of_key idf tid l t0 hmem hid hnd,
    Multiset.map_cons, Multiset.map_coe]

/-- On tasks of the target column other than the moved one, the
`update_task` rewrite acts on positions as `relocShiftFun`. -/
theorem map_pos_update (tid : Nat) (q p : Int) (cid : Nat) (rest : List Task)
    (hids : ∀ u ∈ rest, u.id ≠ tid) (hcols : ∀ u ∈ rest, u.column_id = cid) :
    rest.map (Task.position ∘ fun u =>
      if u.id = tid then { u with position := q }
      else if u.column_id = cid then
        if q > p then
          if p < u.position ∧ u.position ≤ q then
            { u with position := u.position - 1 } else u
        else
          if q ≤ u.position ∧ u.position < p then
            { u with position := u.position + 1 } else u
      else u) =
    (rest.map Task.position).map (relocShiftFun p q) := by
  rw [List.map_map]
  refine List.map_congr_left ?_
  intro u hu
  simp only [Function.comp_apply]
  rw [if_neg (hids u hu), if_pos (hcols u hu)]
  unfold relocShiftFun
  split_ifs <;> rfl

/-- `update_task` to an in-range position keeps the column dense. -/
theorem update_task_dense (ts : List Task) (tid : Nat) (q : Int) (t0 : Task)
    (hfind : ts.find? (fun t => t.id == tid) = some t0)
    (hnd : (ts.map Task.id).Nodup)
    (hd : Dense (posMS ts t0.column_id))
    (hq0 : 0 ≤ q)
    (hqn : q < (Multiset.card (posMS ts t0.column_id) : Int)) :
    Dense (posMS (update_task ts tid q) t0.column_id) := by
  obtain ⟨hmem, hid⟩ := find?_task_props hfind
  by_cases hpq : t0.position = q
  · simp only [update_task, hfind, if_pos hpq]
    exact hd
  · simp only [update_task, hfind, if_neg hpq]
    have hcolF : ∀ t ∈ ts, (if t.id = tid then { t with position := q }
        else if t.column_id = t0.column_id then
          if q > t0.position then
            if t0.position < t.position ∧ t.position ≤ q then
              { t with position := t.position - 1 } else t
          else
            if q ≤ t.position ∧ t.position < t0.position then
              { t with position := t.position + 1 } else t
        else t).column_id = t.column_id := by
      intro t _
      split_ifs <;> rfl
    rw [posMS_map_of_col _ _ _ hcolF]
    have hmem0 : t0 ∈ ts.filter (fun t => t.column_id == t0.column_id) :=
      List.mem_filter.mpr ⟨hmem, by simp⟩
    have hnd0 := nodup_key_filter Task.id
      (fun t => t.column_id == t0.column_id) ts hnd
    rw [coe_map_cons_key Task.id tid _ t0 hmem0 hid hnd0]
    set rest := (ts.filter (fun t => t.column_id == t0.column_id)).filter
      (fun u => u.id != tid) with hrest
    have hids : ∀ u ∈ rest, u.id ≠ tid := by
      intro u hu
      simpa using (List.mem_filter.mp hu).2
    have hcols : ∀ u ∈ rest, u.column_id = t0.column_id := by
      intro u hu
      simpa using (List.mem_filter.mp ((List.mem_filter.mp hu).1)).2
    rw [map_pos_update tid q t0.position t0.column_id rest hids hcols]
    have hanchor := posMS_cons_key ts tid t0 hmem hid hnd t0.column_id rfl
    rw [← hrest] at hanchor
    set X := Multiset.map Task.position (↑rest : Multiset Task) with hX
    set n := Multiset.card X with hn
    have hcard : Multiset.card (posMS ts t0.column_id) = n + 1 := by
      rw [hanchor, Multiset.card_cons]
    unfold Dense at hd
    rw [hcard] at hd
    have hconsX : t0.position ::ₘ X = intRange (n + 1) := hanchor.symm.trans hd
    have hpnot : t0.position ∉ X := by
      have hnodup : (t0.position ::ₘ X).Nodup := by
        rw [hconsX]
        exact nodup_intRange (n + 1)
      exact (Multiset.nodup_cons.mp hnodup).1
    have hpmem : t0.position ∈ intRange (n + 1) := by
      rw [← hconsX]
      exact Multiset.mem_cons_self _ _
    have hpb := mem_intRange.mp hpmem
    apply dense_of_eq_intRange (n := n + 1)
    rw [← Multiset.map_coe, ← Multiset.map_coe, ← hX]
    have hshift_perm : Multiset.map (relocShiftFun t0.position q) X =
        Multiset.map (relocPerm t0.position q) X := by
      refine Multiset.map_congr rfl ?_
      intro x hx
      have hxp : x ≠ t0.position := fun he => hpnot (he ▸ hx)
      simp [relocPerm, hxp]
    have hcons_map : q ::ₘ Multiset.map (relocPerm t0.position q) X =
        Multiset.map (relocPerm t0.position q) (t0.position ::ₘ X) := by
      rw [Multiset.map_cons]
      congr 1
      simp [relocPerm]
    simp only [Function.comp_apply]
    rw [if_pos hid]
    show q ::ₘ Multiset.map (relocShiftFun t0.position q) X = intRange (n + 1)
    rw [hshift_perm, hcons_map, hconsX]
    refine relocPerm_intRange t0.position q (n + 1) hpb.1 hpb.2 hq0 ?_
    rw [hcard] at hqn
    exact_mod_cast hqn

/-- `reorder_column` in map form: overwriting the moved column's position
after the shift loop makes the pre-overwrite shift of that column
irrelevant, so the whole endpoint is one rewrite of the column table. -/
theorem reorder_column_eq_map (cols : List Column) (cid : Nat) (q : Int)
    (c0 : Column) (hfind : cols.find? (fun c => c.id == cid) = some c0) :
    reorder_column cols cid q = cols.map (fun u =>
      if u.id = cid then { u with position := q }
      else if u.board_id = c0.board_id then
        if q > c0.position then
          if c0.position < u.position ∧ u.position ≤ q then
            { u with position := u.position - 1 } else u
        else
          if q ≤ u.position ∧ u.position < c0.position then
            { u with position := u.position + 1 } else u
      else u) := by
  simp only [reorder_column, hfind]
  refine List.map_congr_left ?_
  intro u _
  by_cases hu : u.id = cid
  · simp only [if_pos hu]
    split_ifs <;> rfl
  · simp only [if_neg hu]

/-- On columns of the board other than the moved one, the `reorder_column`
rewrite acts on positions as `relocShiftFun`. -/
theorem map_pos_update_col (cid : Nat) (q p : Int) (bid : Nat)
    (rest : List Column)
    (hids : ∀ u ∈ rest, u.id ≠ cid) (hbs : ∀ u ∈ rest, u.board_id = bid) :
    rest.map (Column.position ∘ fun u =>
      if u.id = cid then { u with position := q }
      else if u.board_id = bid then
        if q > p then
          if p < u.position ∧ u.position ≤ q then
            { u with position := u.position - 1 } else u
        else
          if q ≤ u.position ∧ u.position < p then
            { u with position := u.position + 1 } else u
      else u) =
    (rest.map Column.position).map (relocShiftFun p q) := by
  rw [List.map_map]
  refine List.map_congr_left ?_
  intro u hu
  simp only [Function.comp_apply]
  rw [if_neg (hids u hu), if_pos (hbs u hu)]
  unfold relocShiftFun
  split_ifs <;> rfl

/-- `reorder_column` to an in-range position keeps the board dense. -/
theorem reorder_column_dense (cols : List Column) (cid : Nat) (q : Int)
    (c0 : Column) (hfind : cols.find? (fun c => c.id == cid) = some c0)
    (hnd : (cols.map Column.id).Nodup)
    (hd : Dense (colPosMS cols c0.board_id))
    (hq0 : 0 ≤ q)
    (hqn : q < (Multiset.card (colPosMS cols c0.board_id) : Int)) :
    Dense (colPosMS (reorder_column cols cid q) c0.board_id) := by
  obtain ⟨hmem, hid⟩ := find?_column_props hfind
  rw [reorder_column_eq_map cols cid q c0 hfind]
  have hbF : ∀ c ∈ cols, (if c.id = cid then { c with position := q }
      else if c.board_id = c0.board_id then
        if q > c0.position then
          if c0.position < c.position ∧ c.position ≤ q then
            { c with position := c.position - 1 } else c
        else
          if q ≤ c.position ∧ c.position < c0.position then
            { c with position := c.position + 1 } else c
      else c).board_id = c.board_id := by
    intro c _
    split_ifs <;> rfl
  rw [colPosMS_map_of_board _ _ _ hbF]
  have hmem0 : c0 ∈ cols.filter (fun c => c.board_id == c0.board_id) :=
    List.mem_filter.mpr ⟨hmem, by simp⟩
  have hnd0 := nodup_key_filter Column.id
    (fun c => c.board_id == c0.board_id) cols hnd
  rw [coe_map_cons_key Column.id cid _ c0 hmem0 hid hnd0]
  set rest := (cols.filter (fun c => c.board_id == c0.board_id)).filter
    (fun u => u.id != cid) with hrest
  have hids : ∀ u ∈ rest, u.id ≠ cid := by
    intro u hu
    simpa using (List.mem_filter.mp hu).2
  have hbs : ∀ u ∈ rest, u.board_id = c0.board_id := by
    intro u hu
    simpa using (List.mem_filter.mp ((List.mem_filter.mp hu).1)).2
  rw [map_pos_update_col cid q c0.position c0.board_id rest hids hbs]
  have hanchor := colPosMS_cons_key cols cid c0 hmem hid hnd c0.board_id rfl
  rw [← hrest] at hanchor
  set X := Multiset.map Column.position (↑rest : Multiset Column) with hX
  set n := Multiset.card X with hn
  have hcard : Multiset.card (colPosMS cols c0.board_id) = n + 1 := by
    rw [hanchor, Multiset.card_cons]
  unfold Dense at hd
  rw [hcard] at hd
  have hconsX : c0.position ::ₘ X = intRange (n + 1) := hanchor.symm.trans hd
  have hpnot : c0.position ∉ X := by
    have hnodup : (c0.position ::ₘ X).Nodup := by
      rw [hconsX]
      exact nodup_intRange (n + 1)
    exact (Multiset.nodup_cons.mp hnodup).1
  have hpmem : c0.position ∈ intRange (n + 1) := by
    rw [← hconsX]
    exact Multiset.mem_cons_self _ _
  have hpb := mem_intRange.mp hpmem
  apply dense_of_eq_intRange (n := n + 1)
  rw [← Multiset.map_coe, ← Multiset.map_coe, ← hX]
  have hshift_perm : Multiset.map (relocShiftFun c0.position q) X =
      Multiset.map (relocPerm c0.position q) X := by
    refine Multiset.map_congr rfl ?_
    intro x hx
    have hxp : x ≠ c0.position := fun he => hpnot (he ▸ hx)
    simp [relocPerm, hxp]
  have hcons_map : q ::ₘ Multiset.map (relocPerm c0.position q) X =
      Multiset.map (relocPerm c0.position q) (c0.position ::ₘ X) := by
    rw [Multiset.map_cons]
    congr 1
    simp [relocPerm]
  simp only [Function.comp_apply]
  rw [if_pos hid]
  show q ::ₘ Multiset.map (relocShiftFun c0.position q) X = intRange (n + 1)
  rw [hshift_perm, hcons_map, hconsX]
  refine relocPerm_intRange c0.position q (n + 1) hpb.1 hpb.2 hq0 ?_
  rw [hcard] at hqn
  exact_mod_cast hqn

/-- A dense multiset with the element `p` split off turns, downshifted, into
the dense multiset one shorter. -/
theorem dense_downshift_of_anchor {p : Int} {X : Multiset Int}
    (hcons : p ::ₘ X = intRange (Multiset.card X + 1)) :
    Multiset.map (downShiftFun p) X = intRange (Multiset.card X) := by
  have hXer : X = (intRange (Multiset.card X + 1)).erase p := by
    rw [← hcons, Multiset.erase_cons_head]
  have hpmem : p ∈ intRange (Multiset.card X + 1) := by
    rw [← hcons]
    exact Multiset.mem_cons_self _ _
  have hpb := mem_intRange.mp hpmem
  calc Multiset.map (downShiftFun p) X
      = Multiset.map (downShiftFun p)
          ((intRange (Multiset.card X + 1)).erase p) := by rw [← hXer]
    _ = intRange (Multiset.card X) :=
        downShift_erase_intRange p _ hpb.1 (by
          have := hpb.2
          push_cast at this ⊢
          omega)

/-- On the source column's remaining tasks, the cross-column `move_task`
rewrite acts on positions as `downShiftFun`. -/
theorem map_pos_move_src (tid : Nat) (newCol : Nat) (q p : Int) (src : Nat)
    (hsrc : src ≠ newCol) (rest : List Task)
    (hids : ∀ u ∈ rest, u.id ≠ tid) (hcols : ∀ u ∈ rest, u.column_id = src) :
    rest.map (Task.position ∘ fun u =>
      if u.id = tid then { u with column_id := newCol, position := q }
      else if u.column_id = src ∧ u.position > p then
        { u with position := u.position - 1 }
      else if u.column_id = newCol ∧ u.position ≥ q then
        { u with position := u.position + 1 }
      else u) =
    (rest.map Task.position).map (downShiftFun p) := by
  rw [List.map_map]
  refine List.map_congr_left ?_
  intro u hu
  simp only [Function.comp_apply]
  rw [if_neg (hids u hu)]
  by_cases hgt : u.position > p
  · rw [if_pos ⟨hcols u hu, hgt⟩]
    simp [downShiftFun, hgt]
  · rw [if_neg (fun hc => hgt hc.2),
      if_neg (fun hc => hsrc ((hcols u hu).symm.trans hc.1))]
    simp [downShiftFun, hgt]

/-- On the destination column's existing tasks, the cross-column `move_task`
rewrite acts on positions as `upShiftFun`. -/
theorem map_pos_move_dest (tid : Nat) (newCol : Nat) (q p : Int) (src : Nat)
    (hsrc : src ≠ newCol) (destL : List Task)
    (hids : ∀ u ∈ destL, u.id ≠ tid)
    (hcols : ∀ u ∈ destL, u.column_id = newCol) :
    destL.map (Task.position ∘ fun u =>
      if u.id = tid then { u with column_id := newCol, position := q }
      else if u.column_id = src ∧ u.position > p then
        { u with position := u.position - 1 }
      else if u.column_id = newCol ∧ u.position ≥ q then
        { u with position := u.position + 1 }
      else u) =
    (destL.map Task.position).map (upShiftFun q) := by
  rw [List.map_map]
  refine List.map_congr_left ?_
  intro u hu
  simp only [Function.comp_apply]
  rw [if_neg (hids u hu),
    if_neg (fun hc => hsrc (hc.1.symm.trans (hcols u hu)))]
  by_cases hge : u.position ≥ q
  · rw [if_pos ⟨hcols u hu, hge⟩]
    simp [upShiftFun, hge]
  · rw [if_neg (fun hc => hge hc.2)]
    simp [upShiftFun, hge]

/-- Moving a task across columns keeps both the vacated column and the
destination column dense, the latter provided the insert position is in
`[0, count]`. -/
theorem move_task_dense (ts : List Task) (tid : Nat) (newCol : Nat) (q : Int)
    (t0 : Task) (hfind : ts.find? (fun t => t.id == tid) = some t0)
    (hnd : (ts.map Task.id).Nodup)
    (hcc : t0.column_id ≠ newCol)
    (hdS : Dense (posMS ts t0.column_id))
    (hdD : Dense (posMS ts newCol))
    (hq0 : 0 ≤ q)
    (hqM : q ≤ (Multiset.card (posMS ts newCol) : Int)) :
    Dense (posMS (move_task ts tid newCol q) t0.column_id) ∧
      Dense (posMS (move_task ts tid newCol q) newCol) := by
  obtain ⟨hmem, hid⟩ := find?_task_props hfind
  simp only [move_task, hfind, if_neg hcc]
  have hcolpres : ∀ t : Task, t.id ≠ tid →
      (if t.id = tid then { t with column_id := newCol, position := q }
        else if t.column_id = t0.column_id ∧ t.position > t0.position then
          { t with position := t.position - 1 }
        else if t.column_id = newCol ∧ t.position ≥ q then
          { t with position := t.position + 1 }
        else t).column_id = t.column_id := by
    intro t hti
    rw [if_neg hti]
    split_ifs <;> rfl
  have hidt0 : ∀ t ∈ ts, t.id = tid → t = t0 := by
    intro t hmt hti
    exact eq_of_mem_of_key Task.id hnd hmt hmem (by rw [hti, hid])
  constructor
  · -- the vacated source column stays dense
    unfold posMS tasksInColumn
    rw [List.filter_map, List.map_map]
    have hfc : ts.filter ((fun t => t.column_id == t0.column_id) ∘ fun u =>
        if u.id = tid then { u with column_id := newCol, position := q }
        else if u.column_id = t0.column_id ∧ u.position > t0.position then
          { u with position := u.position - 1 }
        else if u.column_id = newCol ∧ u.position ≥ q then
          { u with position := u.position + 1 }
        else u) =
        (ts.filter (fun t => t.column_id == t0.column_id)).filter
          (fun u => u.id != tid) := by
      rw [List.filter_filter]
      refine List.filter_congr ?_
      intro t hmt
      simp only [Function.comp_apply]
      by_cases hti : t.id = tid
      · have ht0 := hidt0 t hmt hti
        rw [if_pos hti]
        have h1 : (newCol == t0.column_id) = false := by
          simpa using fun h : newCol = t0.column_id => hcc h.symm
        simp [hti, h1]
      · rw [hcolpres t hti]
        simp [hti]
    rw [hfc]
    set rest := (ts.filter (fun t => t.column_id == t0.column_id)).filter
      (fun u => u.id != tid) with hrest
    have hids : ∀ u ∈ rest, u.id ≠ tid := by
      intro u hu
      simpa using (List.mem_filter.mp hu).2
    have hcols : ∀ u ∈ rest, u.column_id = t0.column_id := by
      intro u hu
      simpa using (List.mem_filter.mp ((List.mem_filter.mp hu).1)).2
    rw [map_pos_move_src tid newCol q t0.position t0.column_id hcc rest
      hids hcols]
    have hanchor := posMS_cons_key ts tid t0 hmem hid hnd t0.column_id rfl
    rw [← hrest] at hanchor
    set X := Multiset.map Task.position (↑rest : Multiset Task) with hX
    have hcard : Multiset.card (posMS ts t0.column_id) =
        Multiset.card X + 1 := by
      rw [hanchor, Multiset.card_cons]
    unfold Dense at hdS
    rw [hcard] at hdS
    have hconsX : t0.position ::ₘ X = intRange (Multiset.card X + 1) :=
      hanchor.symm.trans hdS
    apply dense_of_eq_intRange (n := Multiset.card X)
    rw [← Multiset.map_coe, ← Multiset.map_coe, ← hX]
    exact dense_downshift_of_anchor hconsX
  · -- the destination column becomes dense one longer
    unfold posMS tasksInColumn
    rw [List.filter_map, List.map_map]
    have hPt0 : (fun t : Task => (t.id == tid) || (t.column_id == newCol)) t0
        = true := by
      simp [hid]
    have hfc : ts.filter ((fun t => t.column_id == newCol) ∘ fun u =>
        if u.id = tid then { u with column_id := newCol, position := q }
        else if u.column_id = t0.column_id ∧ u.position > t0.position then
          { u with position := u.position - 1 }
        else if u.column_id = newCol ∧ u.position ≥ q then
          { u with position := u.position + 1 }
        else u) =
        ts.filter (fun t => (t.id == tid) || (t.column_id == newCol)) := by
      refine List.filter_congr ?_
      intro t hmt
      simp only [Function.comp_apply]
      by_cases hti : t.id = tid
      · rw [if_pos hti]
        simp [hti]
      · rw [hcolpres t hti]
        simp [hti]
    rw [hfc]
    have hsplit := filter_key_cons Task.id tid ts t0 hmem hid hnd
      (fun t => (t.id == tid) || (t.column_id == newCol)) hPt0
    have hdest_ids : ∀ u ∈ ts.filter (fun t => t.column_id == newCol),
        u.id ≠ tid := by
      intro u hu hti
      obtain ⟨humem, hucol⟩ := List.mem_filter.mp hu
      have := hidt0 u humem hti
      apply hcc
      rw [← this]
      simpa using hucol
    have hinner : (ts.filter (fun u => u.id != tid)).filter
        (fun t => (t.id == tid) || (t.column_id == newCol)) =
        ts.filter (fun t => t.column_id == newCol) := by
      have h1 : (ts.filter (fun u => u.id != tid)).filter
          (fun t => (t.id == tid) || (t.column_id == newCol)) =
          (ts.filter (fun u => u.id != tid)).filter
            (fun t => t.column_id == newCol) := by
        refine List.filter_congr ?_
        intro t hmt
        have : t.id ≠ tid := by
          simpa using (List.mem_filter.mp hmt).2
        simp [this]
      rw [h1, filter_swap]
      refine List.filter_eq_self.mpr ?_
      intro u hu
      simpa using hdest_ids u hu
    rw [← Multiset.map_coe, hsplit, hinner, Multiset.map_cons,
      Multiset.map_coe]
    set destL := ts.filter (fun t => t.column_id == newCol) with hdestL
    have hcolsD : ∀ u ∈ destL, u.column_id = newCol := by
      intro u hu
      simpa using (List.mem_filter.mp hu).2
    rw [map_pos_move_dest tid newCol q t0.position t0.column_id hcc destL
      hdest_ids hcolsD]
    have hposD : posMS ts newCol = (↑(destL.map Task.position) : Multiset Int) := by
      unfold posMS tasksInColumn
      rw [hdestL]
    simp only [Function.comp_apply]
    rw [if_pos hid]
    apply dense_of_eq_intRange (n := Multiset.card (posMS ts newCol) + 1)
    show q ::ₘ (↑((destL.map Task.position).map (upShiftFun q)) : Multiset Int) =
      intRange (Multiset.card (posMS ts newCol) + 1)
    rw [← Multiset.map_coe, ← hposD]
    unfold Dense at hdD
    rw [hdD, card_intRange]
    exact upShift_cons_intRange q _ hq0 (by exact_mod_cast hqM)

/-- A same-column `move_task` is exactly the `update_task` relocation. -/
theorem move_task_same_eq_update (ts : List Task) (tid : Nat) (q : Int)
    (t0 : Task) (hfind : ts.find? (fun t => t.id == tid) = some t0) :
    move_task ts tid t0.column_id q = update_task ts tid q := by
  simp only [move_task, update_task, hfind]
  rw [if_true]
  by_cases hq : t0.position = q
  · rw [if_neg (not_not_intro hq.symm), if_pos hq]
  · rw [if_pos (fun he => hq he.symm), if_neg hq]
    refine List.map_congr_left ?_
    intro u _
    by_cases hui : u.id = tid
    · rw [if_pos hui, if_pos hui]
      split_ifs <;> rfl
    · rw [if_neg hui, if_neg hui]

/-! ## Claims -/

/-- Claim C1, counterexample: the density invariant does not survive every
mutation.  Creating a task with an explicit position stores that position
verbatim (no clamp, no shift), so creating at position 5 in a dense
one-task column leaves positions `{0, 5}`; likewise `update_column` writes
the requested column position verbatim, leaving `{1, 1}` on a dense
two-column board. -/
theorem C1_counterexample :
    Dense (posMS ([⟨1, 1, 0⟩] : List Task) 1) ∧
      ¬ Dense (posMS (create_task [⟨1, 1, 0⟩] 1 (some 5) 2) 1) ∧
      Dense (colPosMS ([⟨1, 5, 0⟩, ⟨2, 5, 1⟩] : List Column) 5) ∧
      ¬ Dense (colPosMS (update_column [⟨1, 5, 0⟩, ⟨2, 5, 1⟩] 1 (some 1)) 5) := by
  decide

/-- Claim C1, amended: the density invariant is preserved by creation
without an explicit position, by within-column relocation (`update_task`)
to an in-range position, by cross-column `move_task` with an in-range
insert position (in both affected columns), by `delete_task`, and by
`reorder_column` to an in-range position; a same-column `move_task` equals
the `update_task` relocation.  (Creation with an explicit position,
`update_column` position writes, `delete_column`, and out-of-range targets
are not density-preserving, per the counterexample.) -/
theorem C1_amended :
    (∀ (ts : List Task) (cid nid : Nat), Dense (posMS ts cid) →
      Dense (posMS (create_task ts cid none nid) cid)) ∧
    (∀ (ts : List Task) (tid : Nat) (q : Int) (t0 : Task),
      ts.find? (fun t => t.id == tid) = some t0 →
      (ts.map Task.id).Nodup →
      Dense (posMS ts t0.column_id) →
      0 ≤ q → q < (Multiset.card (posMS ts t0.column_id) : Int) →
      Dense (posMS (update_task ts tid q) t0.column_id)) ∧
    (∀ (ts : List Task) (tid : Nat) (t0 : Task),
      ts.find? (fun t => t.id == tid) = some t0 →
      (ts.map Task.id).Nodup →
      Dense (posMS ts t0.column_id) →
      Dense (posMS (delete_task ts tid) t0.column_id)) ∧
    (∀ (ts : List Task) (tid newCol : Nat) (q : Int) (t0 : Task),
      ts.find? (fun t => t.id == tid) = some t0 →
      (ts.map Task.id).Nodup →
      t0.column_id ≠ newCol →
      Dense (posMS ts t0.column_id) → Dense (posMS ts newCol) →
      0 ≤ q → q ≤ (Multiset.card (posMS ts newCol) : Int) →
      Dense (posMS (move_task ts tid newCol q) t0.column_id) ∧
        Dense (posMS (move_task ts tid newCol q) newCol)) ∧
    (∀ (cols : List Column) (cid : Nat) (q : Int) (c0 : Column),
      cols.find? (fun c => c.id == cid) = some c0 →
      (cols.map Column.id).Nodup →
      Dense (colPosMS cols c0.board_id) →
      0 ≤ q → q < (Multiset.card (colPosMS cols c0.board_id) : Int) →
      Dense (colPosMS (reorder_column cols cid q) c0.board_id)) ∧
    (∀ (ts : List Task) (tid : Nat) (q : Int) (t0 : Task),
      ts.find? (fun t => t.id == tid) = some t0 →
      move_task ts tid t0.column_id q = update_task ts tid q) :=
  ⟨create_task_none_dense, update_task_dense, delete_task_dense,
    move_task_dense, reorder_column_dense, move_task_same_eq_update⟩

/-- Witness: C1_amended applied to concrete dense containers. -/
theorem C1_witness :
    Dense (posMS (create_task [⟨1, 1, 0⟩] 1 none 2) 1) ∧
    Dense (posMS (update_task [⟨1, 1, 0⟩, ⟨2, 1, 1⟩, ⟨3, 1, 2⟩] 2 0) 1) ∧
    Dense (posMS (delete_task [⟨1, 1, 0⟩, ⟨2, 1, 1⟩, ⟨3, 1, 2⟩] 2) 1) ∧
    (Dense (posMS (move_task [⟨1, 1, 0⟩, ⟨2, 1, 1⟩] 1 2 0) 1) ∧
      Dense (posMS (move_task [⟨1, 1, 0⟩, ⟨2, 1, 1⟩] 1 2 0) 2)) ∧
    Dense (colPosMS (reorder_column [⟨1, 5, 0⟩, ⟨2, 5, 1⟩] 1 1) 5) ∧
    move_task [⟨1, 1, 0⟩, ⟨2, 1, 1⟩, ⟨3, 1, 2⟩] 2 1 0 =
      update_task [⟨1, 1, 0⟩, ⟨2, 1, 1⟩, ⟨3, 1, 2⟩] 2 0 :=
  ⟨C1_amended.1 [⟨1, 1, 0⟩] 1 2 (by decide),
   C1_amended.2.1 [⟨1, 1, 0⟩, ⟨2, 1, 1⟩, ⟨3, 1, 2⟩] 2 0 ⟨2, 1, 1⟩
     (by decide) (by decide) (by decide) (by decide) (by decide),
   C1_amended.2.2.1 [⟨1, 1, 0⟩, ⟨2, 1, 1⟩, ⟨3, 1, 2⟩] 2 ⟨2, 1, 1⟩
     (by decide) (by decide) (by decide),
   C1_amended.2.2.2.1 [⟨1, 1, 0⟩, ⟨2, 1, 1⟩] 1 2 0 ⟨1, 1, 0⟩
     (by decide) (by decide) (by decide) (by decide) (by decide)
     (by decide) (by decide),
   C1_amended.2.2.2.2.1 [⟨1, 5, 0⟩, ⟨2, 5, 1⟩] 1 1 ⟨1, 5, 0⟩
     (by decide) (by decide) (by decide) (by decide) (by decide),
   C1_amended.2.2.2.2.2 [⟨1, 1, 0⟩, ⟨2, 1, 1⟩, ⟨3, 1, 2⟩] 2 0 ⟨2, 1, 1⟩
     (by decide)⟩

/-- Claim C2, counterexample: with container `[A@0]` and desired position 0
the claim requires A to be shifted up to 1; `create_task` instead appends
the new task carrying position 0 and leaves A at 0, so the code differs
from the spec's clamping-and-shifting insert. -/
theorem C2_counterexample :
    create_task [⟨1, 1, 0⟩] 1 (some 0) 2 ≠
        spec_insert [⟨1, 1, 0⟩] 1 (some 0) 2 ∧
      create_task [⟨1, 1, 0⟩] 1 (some 0) 2 = [⟨1, 1, 0⟩, ⟨2, 1, 0⟩] := by
  decide

/-- Claim C2, amended: an explicit position is indeed never rejected, but it
is also never clamped and shifts nothing — the new task is appended
carrying the supplied position verbatim while every existing task keeps its
exact position; without a position the task is appended at `count`; column
creation (position always required) appends verbatim too.  Consequently a
creation with an explicit position preserves density exactly when that
position equals `count`. -/
theorem C2_amended :
    (∀ (ts : List Task) (cid : Nat) (p : Int) (nid : Nat),
      create_task ts cid (some p) nid = ts ++ [⟨nid, cid, p⟩]) ∧
    (∀ (ts : List Task) (cid nid : Nat),
      create_task ts cid none nid =
        ts ++ [⟨nid, cid, ((tasksInColumn ts cid).length : Int)⟩]) ∧
    (∀ (cols : List Column) (bid : Nat) (p : Int) (nid : Nat),
      create_column cols bid p nid = cols ++ [⟨nid, bid, p⟩]) ∧
    (∀ (ts : List Task) (cid : Nat) (p : Int) (nid : Nat),
      Dense (posMS ts cid) →
      (Dense (posMS (create_task ts cid (some p) nid) cid) ↔
        p = (Multiset.card (posMS ts cid) : Int))) := by
  refine ⟨fun ts cid p nid => rfl, fun ts cid nid => rfl,
    fun cols bid p nid => rfl, ?_⟩
  intro ts cid p nid hd
  unfold Dense at hd
  set N := Multiset.card (posMS ts cid) with hN
  have hps : posMS (create_task ts cid (some p) nid) cid =
      p ::ₘ posMS ts cid := by
    simp only [create_task]
    rw [posMS_append, if_pos rfl, add_comm, Multiset.singleton_add]
  constructor
  · intro hdense
    unfold Dense at hdense
    rw [hps, Multiset.card_cons, hd, card_intRange] at hdense
    have hnd2 : (p ::ₘ intRange N).Nodup := by
      rw [hdense]
      exact nodup_intRange _
    have hpnot := (Multiset.nodup_cons.mp hnd2).1
    have hpmem : p ∈ intRange (N + 1) := by
      rw [← hdense]
      exact Multiset.mem_cons_self _ _
    have h1 := mem_intRange.mp hpmem
    have h2 : ¬(0 ≤ p ∧ p < (N : Int)) := fun hc =>
      hpnot (mem_intRange.mpr hc)
    push_cast at h1
    omega
  · intro hp
    apply dense_of_eq_intRange (n := N + 1)
    rw [hps, hd, hp, ← intRange_succ]

/-- Witness: C2_amended applied to container `[A@0]` with desired position
5, yielding the verbatim append and the density criterion. -/
theorem C2_witness :
    create_task [⟨1, 1, 0⟩] 1 (some 5) 2 = [⟨1, 1, 0⟩, ⟨2, 1, 5⟩] ∧
      (Dense (posMS (create_task [⟨1, 1, 0⟩] 1 (some 5) 2) 1) ↔
        (5 : Int) = (Multiset.card (posMS ([⟨1, 1, 0⟩] : List Task) 1) : Int)) :=
  ⟨C2_amended.1 [⟨1, 1, 0⟩] 1 5 2,
   C2_amended.2.2.2 [⟨1, 1, 0⟩] 1 5 2 (by decide)⟩

/-- Claim C4, counterexample: deleting column B from the dense board
`[X@0, Y@1, Z@2]` leaves `[X@0, Z@2]` — `delete_column` does not decrement
the remaining columns, so the board instantiation of the claim fails. -/
theorem C4_counterexample :
    Dense (colPosMS ([⟨1, 5, 0⟩, ⟨2, 5, 1⟩, ⟨3, 5, 2⟩] : List Column) 5) ∧
      delete_column [⟨1, 5, 0⟩, ⟨2, 5, 1⟩, ⟨3, 5, 2⟩] 2 =
        [⟨1, 5, 0⟩, ⟨3, 5, 2⟩] ∧
      ¬ Dense (colPosMS
        (delete_column [⟨1, 5, 0⟩, ⟨2, 5, 1⟩, ⟨3, 5, 2⟩] 2) 5) := by
  decide

/-- Claim C4, amended: removal re-tightens for tasks only — deleting a task
leaves the column dense with one item fewer (positions `0..N-2`) — while
`delete_column` merely filters the column out and never touches the
remaining columns' positions. -/
theorem C4_amended :
    (∀ (ts : List Task) (tid : Nat) (t0 : Task),
      ts.find? (fun t => t.id == tid) = some t0 →
      (ts.map Task.id).Nodup →
      Dense (posMS ts t0.column_id) →
      Dense (posMS (delete_task ts tid) t0.column_id) ∧
        Multiset.card (posMS (delete_task ts tid) t0.column_id) + 1 =
          Multiset.card (posMS ts t0.column_id)) ∧
    (∀ (cols : List Column) (cid : Nat),
      delete_column cols cid = cols.filter (fun c => c.id != cid)) := by
  refine ⟨?_, fun cols cid => rfl⟩
  intro ts tid t0 hfind hnd hd
  refine ⟨delete_task_dense ts tid t0 hfind hnd hd, ?_⟩
  obtain ⟨hmem, hid⟩ := find?_task_props hfind
  have hG : ∀ u ∈ ts.filter (fun u => u.id != tid),
      (if u.column_id = t0.column_id ∧ u.position > t0.position then
        { u with position := u.position - 1 } else u).column_id =
        u.column_id := by
    intro u _
    split_ifs <;> rfl
  simp only [delete_task, hfind]
  rw [posMS_map_of_col _ _ _ hG, filter_swap,
    posMS_cons_key ts tid t0 hmem hid hnd t0.column_id rfl,
    Multiset.coe_card, List.length_map, Multiset.card_cons,
    Multiset.card_map, Multiset.coe_card]

/-- Witness: C4_amended applied to the spec's example container
`[A@0, B@1, C@2]` with B removed, and to a two-column board. -/
theorem C4_witness :
    (Dense (posMS (delete_task [⟨1, 1, 0⟩, ⟨2, 1, 1⟩, ⟨3, 1, 2⟩] 2) 1) ∧
      Multiset.card (posMS (delete_task [⟨1, 1, 0⟩, ⟨2, 1, 1⟩, ⟨3, 1, 2⟩] 2) 1)
          + 1 =
        Multiset.card (posMS ([⟨1, 1, 0⟩, ⟨2, 1, 1⟩, ⟨3, 1, 2⟩] : List Task) 1)) ∧
    delete_column [⟨1, 5, 0⟩, ⟨2, 5, 1⟩] 1 =
      ([⟨1, 5, 0⟩, ⟨2, 5, 1⟩] : List Column).filter (fun c => c.id != 1) :=
  ⟨C4_amended.1 [⟨1, 1, 0⟩, ⟨2, 1, 1⟩, ⟨3, 1, 2⟩] 2 ⟨2, 1, 1⟩
     (by decide) (by decide) (by decide),
   C4_amended.2 [⟨1, 5, 0⟩, ⟨2, 5, 1⟩] 1⟩

/-- Claim C8, counterexample: an event constructed at clock 5 carries
timestamp 5 on the wire, yet the listener loop rebuilds the event without
passing the wire timestamp, so a subscriber reached through the broker
relay at clock 9 receives timestamp 9 — not the construction-time 5 the
claim promises for both paths. -/
theorem C8_counterexample :
    (mkBoardEvent "task_created" 7 [] none none 5).timestamp = 5 ∧
      (mkBoardEvent "task_created" 7 [] none none 5).to_json.timestamp = 5 ∧
      (listenReconstruct
          (mkBoardEvent "task_created" 7 [] none none 5).to_json 9).timestamp ≠
        (mkBoardEvent "task_created" 7 [] none none 5).timestamp := by
  refine ⟨rfl, rfl, ?_⟩
  decide

/-- Claim C8, amended: the timestamp is generated at construction
(defaulting the missing field to the current clock) and the direct local
path serializes that same timestamp; the broker relay path, however,
rebuilds the event without the wire timestamp, so relayed subscribers
always receive the listener's reconstruction clock. -/
theorem C8_amended :
    (∀ (et : String) (bid : Nat) (payload : List (String × String))
      (uid : Option Nat) (now : Nat),
      (mkBoardEvent et bid payload uid none now).timestamp = now) ∧
    (∀ e : BoardEvent, e.to_json.timestamp = e.timestamp) ∧
    (∀ (w : EventWire) (now : Nat),
      (listenReconstruct w now).timestamp = now) :=
  ⟨fun _ _ _ _ _ => rfl, fun _ => rfl, fun _ _ => rfl⟩

/-- Rewriting a board's entry back to its own current subscriber set is the
identity on a registry whose keys are duplicate-free. -/
theorem setBoard_self (conns : Registry) (bid : Nat) (s : List Nat)
    (hnd : (conns.map Prod.fst).Nodup)
    (h : lookupBoard conns bid = some s) : setBoard conns bid s = conns := by
  unfold lookupBoard at h
  obtain ⟨e0, hf, he⟩ := Option.map_eq_some'.mp h
  have he0mem := List.mem_of_find?_eq_some hf
  have he0b : e0.1 = bid := by simpa using List.find?_some hf
  unfold setBoard
  conv_rhs => rw [← List.map_id conns]
  refine List.map_congr_left ?_
  intro e hme
  by_cases hb : e.1 = bid
  · have he0 : e = e0 :=
      eq_of_mem_of_key Prod.fst hnd hme he0mem (by rw [hb, he0b])
    rw [if_pos hb, he0, ← he0b, ← he]
    rfl
  · rw [if_neg hb]
    rfl

/-- Claim C10, counterexample: a delivery failure prunes the only
subscriber of board 1 but `_broadcast_to_local` keeps the emptied entry; a
later `disconnect` for the never-registered websocket 9 on board 1 then
deletes that empty entry — the connection map changes even though the
websocket was not in the board's subscriber set. -/
theorem C10_counterexample :
    (broadcastToLocal (connect [] 7 1) 1 (fun _ => false)).2 = [(1, [])] ∧
      disconnect [(1, [])] 9 1 = [] ∧
      disconnect [(1, [])] 9 1 ≠ [(1, [])] := by
  decide

/-- Claim C10, amended: `disconnect` never raises (it is a total function
of the registry) and leaves the map unchanged when the board has no entry,
or when the websocket is not in the board's non-empty subscriber set (keys
being duplicate-free); removing the last subscriber removes the board's
entry — and, per the counterexample, so does a disconnect hitting an
already-empty entry left behind by delivery-failure pruning. -/
theorem C10_amended :
    (∀ (conns : Registry) (ws bid : Nat),
      lookupBoard conns bid = none → disconnect conns ws bid = conns) ∧
    (∀ (conns : Registry) (ws bid : Nat) (s : List Nat),
      (conns.map Prod.fst).Nodup →
      lookupBoard conns bid = some s → ws ∉ s → s ≠ [] →
      disconnect conns ws bid = conns) ∧
    (∀ (conns : Registry) (ws bid : Nat),
      lookupBoard conns bid = some [ws] →
      disconnect conns ws bid = delBoard conns bid ∧
        lookupBoard (disconnect conns ws bid) bid = none) := by
  refine ⟨?_, ?_, ?_⟩
  · intro conns ws bid h
    simp only [disconnect, h]
  · intro conns ws bid s hnd h hws hne
    simp only [disconnect, h]
    have hfilt : s.filter (fun w => w != ws) = s := by
      refine List.filter_eq_self.mpr ?_
      intro w hw
      have hne : w ≠ ws := fun he => hws (he ▸ hw)
      simpa using hne
    rw [hfilt, if_neg (by simpa using hne)]
    exact setBoard_self conns bid s hnd h
  · intro conns ws bid h
    have hdel : disconnect conns ws bid = delBoard conns bid := by
      simp only [disconnect, h]
      rw [show ([ws].filter (fun w => w != ws)) = [] by simp]
      rfl
    refine ⟨hdel, ?_⟩
    rw [hdel]
    unfold lookupBoard delBoard
    rw [List.find?_eq_none.mpr ?_]
    · rfl
    · intro e hme
      simpa using (List.mem_filter.mp hme).2

/-- Witness: C10_amended applied to concrete registries — an unknown board,
an unknown websocket on a live board, and a last-subscriber disconnect. -/
theorem C10_witness :
    disconnect [(1, [7]), (2, [8])] 9 3 = [(1, [7]), (2, [8])] ∧
      disconnect [(1, [7]), (2, [8])] 9 1 = [(1, [7]), (2, [8])] ∧
      (disconnect [(1, [7])] 7 1 = delBoard [(1, [7])] 1 ∧
        lookupBoard (disconnect [(1, [7])] 7 1) 1 = none) :=
  ⟨C10_amended.1 [(1, [7]), (2, [8])] 9 3 (by decide),
   C10_amended.2.1 [(1, [7]), (2, [8])] 9 1 [7] (by decide) (by decide)
     (by decide) (by decide),
   C10_amended.2.2 [(1, [7])] 7 1 (by decide)⟩

/-- Claim C6 (fan-out completeness): `_broadcast_to_local` for board B
attempts a send to exactly B's registered subscriber set — all N of its
members, in particular — and to no websocket subscribed only to a
different board C. -/
theorem C6_fanout (conns : Registry) (B C : Nat) (subsB subsC : List Nat)
    (sendOk : Nat → Bool)
    (hB : lookupBoard conns B = some subsB)
    (hC : lookupBoard conns C = some subsC)
    (hBC : B ≠ C) :
    (broadcastToLocal conns B sendOk).1 = subsB ∧
      ∀ w ∈ subsC, w ∉ subsB → w ∉ (broadcastToLocal conns B sendOk).1 := by
  simp only [broadcastToLocal, hB]
  exact ⟨trivial, fun w _ hw => hw⟩

/-- Witness: C6_fanout on a registry with two subscribers on board 7 and one
on board 8 (the spec's scenario 3). -/
theorem C6_witness :
    (broadcastToLocal [(7, [1, 2]), (8, [3])] 7 (fun _ => true)).1 = [1, 2] ∧
      ∀ w ∈ [3], w ∉ [1, 2] →
        w ∉ (broadcastToLocal [(7, [1, 2]), (8, [3])] 7 (fun _ => true)).1 :=
  C6_fanout [(7, [1, 2]), (8, [3])] 7 8 [1, 2] [3] (fun _ => true)
    (by decide) (by decide) (by decide)

/-- Claim C7, counterexample: `redis.from_url` builds the client without
network I/O, so an unreachable broker at start surfaces as the `ping`
failure — which leaves `_redis_client` assigned while `_pubsub` and the
listener task are never created.  A manager started that way is in the
claimed local-only mode, yet a later `broadcast_event` whose publish
succeeds returns immediately (`manager.py` lines 147-151): it publishes
into a channel this process is not listening on and attempts no local
send, so the subscriber of board 7 receives nothing. -/
theorem C7_counterexample :
    (ManagerState.start ⟨[(7, [1])], false, false, false⟩ true false).redisClient
        = true ∧
      (ManagerState.start ⟨[(7, [1])], false, false, false⟩ true false).pubsub
        = false ∧
      lookupBoard (ManagerState.start ⟨[(7, [1])], false, false, false⟩
        true false).connections 7 = some [1] ∧
      (broadcast_event
          (ManagerState.start ⟨[(7, [1])], false, false, false⟩ true false)
          (mkBoardEvent "task_created" 7 [] none none 0) true
          (fun _ => true)).localSends = [] ∧
      (broadcast_event
          (ManagerState.start ⟨[(7, [1])], false, false, false⟩ true false)
          (mkBoardEvent "task_created" 7 [] none none 0) true
          (fun _ => true)).published = true := by
  decide

/-- Claim C7, amended: `broadcast_event` delivers to every locally
registered subscriber of the event's board when `_redis_client` is unset
(`redis.from_url` itself raised at start) or when the publish attempt
fails; but after a start whose ping failed (the broker-unreachable case),
`_redis_client` stays set and no listener runs, so a broadcast whose
publish succeeds returns with the event published and no local send
attempted — those subscribers receive nothing. -/
theorem C7_amended :
    (∀ (st0 : ManagerState) (fromUrlOk pingOk : Bool) (ev : BoardEvent)
      (publishOk : Bool) (sendOk : Nat → Bool),
      st0.running = false →
      fromUrlOk = false ∨ publishOk = false →
      (broadcast_event (st0.start fromUrlOk pingOk) ev publishOk
          sendOk).localSends =
        (lookupBoard st0.connections ev.board_id).getD []) ∧
    (∀ (st0 : ManagerState) (ev : BoardEvent) (sendOk : Nat → Bool),
      st0.running = false →
      (broadcast_event (st0.start true false) ev true sendOk).localSends
          = [] ∧
        (broadcast_event (st0.start true false) ev true sendOk).published
          = true ∧
        (st0.start true false).pubsub = false) := by
  constructor
  · intro st0 fromUrlOk pingOk ev publishOk sendOk hrun hdeg
    have hconn : (st0.start fromUrlOk pingOk).connections =
        st0.connections := by
      unfold ManagerState.start
      rw [hrun]
      simp only [Bool.false_eq_true, if_false]
      split_ifs <;> rfl
    have hloc : ∀ conns : Registry,
        (broadcastToLocal conns ev.board_id sendOk).1 =
          (lookupBoard conns ev.board_id).getD [] := by
      intro conns
      cases h : lookupBoard conns ev.board_id <;>
        simp only [broadcastToLocal, h, Option.getD_some, Option.getD_none]
    rcases hdeg with hf | hp
    · have hrc : (st0.start fromUrlOk pingOk).redisClient = false := by
        unfold ManagerState.start
        rw [hrun, hf]
        simp
      simp only [broadcast_event, hrc, Bool.false_eq_true, if_false]
      rw [hconn]
      exact hloc st0.connections
    · by_cases hrc : (st0.start fromUrlOk pingOk).redisClient = true
      · simp only [broadcast_event, hrc, if_true, hp, Bool.false_eq_true,
          if_false]
        rw [hconn]
        exact hloc st0.connections
      · simp only [broadcast_event, hrc, if_false]
        rw [hconn]
        exact hloc st0.connections
  · intro st0 ev sendOk hrun
    have hst : st0.start true false =
        { st0 with redisClient := true, pubsub := false, running := true } := by
      unfold ManagerState.start
      rw [hrun]
      simp
    rw [hst]
    exact ⟨rfl, rfl, rfl⟩

/-- Witness: C7_amended on a manager with one subscriber on board 7 —
first started with `from_url` itself failing (fallback delivers locally,
the spec's scenario 4), then started with only the ping failing (a
successful publish delivers nothing locally). -/
theorem C7_witness :
    (broadcast_event
        (ManagerState.start ⟨[(7, [1])], false, false, false⟩ false true)
        (mkBoardEvent "task_created" 7 [] none none 0) true
        (fun _ => true)).localSends =
      (lookupBoard [(7, [1])] 7).getD [] ∧
    ((broadcast_event
        (ManagerState.start ⟨[(7, [1])], false, false, false⟩ true false)
        (mkBoardEvent "task_created" 7 [] none none 0) true
        (fun _ => true)).localSends = [] ∧
      (broadcast_event
        (ManagerState.start ⟨[(7, [1])], false, false, false⟩ true false)
        (mkBoardEvent "task_created" 7 [] none none 0) true
        (fun _ => true)).published = true ∧
      (ManagerState.start ⟨[(7, [1])], false, false, false⟩ true false).pubsub
        = false) :=
  ⟨C7_amended.1 ⟨[(7, [1])], false, false, false⟩ false true
      (mkBoardEvent "task_created" 7 [] none none 0) true (fun _ => true)
      rfl (Or.inl rfl),
   C7_amended.2 ⟨[(7, [1])], false, false, false⟩
      (mkBoardEvent "task_created" 7 [] none none 0) (fun _ => true) rfl⟩

/-- Claim C9 (idempotent no-op relocate): relocating a task, or a column,
to its current position leaves the container list exactly unchanged —
`update_task` by its explicit no-op guard, `reorder_column` because both
shift ranges are then empty and the overwrite restores the old position. -/
theorem C9_noop (ts : List Task) (tid : Nat) (t0 : Task)
    (hfindT : ts.find? (fun t => t.id == tid) = some t0)
    (cols : List Column) (cid : Nat) (c0 : Column)
    (hfindC : cols.find? (fun c => c.id == cid) = some c0)
    (hndC : (cols.map Column.id).Nodup) :
    update_task ts tid t0.position = ts ∧
      reorder_column cols cid c0.position = cols := by
  constructor
  · simp [update_task, hfindT]
  · rw [reorder_column_eq_map cols cid c0.position c0 hfindC]
    conv_rhs => rw [← List.map_id cols]
    refine List.map_congr_left ?_
    intro u hmu
    by_cases hui : u.id = cid
    · have hu0 : u = c0 :=
        eq_of_mem_of_key Column.id hndC hmu
          (List.mem_of_find?_eq_some hfindC)
          (by rw [hui]; exact ((find?_column_props hfindC).2).symm)
    -- the moved column gets its own position written back
      rw [if_pos hui, hu0]
      rfl
    · rw [if_neg hui]
      by_cases hb : u.board_id = c0.board_id
      · rw [if_pos hb, if_neg (lt_irrefl _), if_neg (by omega)]
        rfl
      · rw [if_neg hb]
        rfl

/-- Witness: C9_noop applied to `[A@0, B@1, C@2]` with B relocated to its
current position 1, and a two-column board likewise. -/
theorem C9_witness :
    update_task [⟨1, 1, 0⟩, ⟨2, 1, 1⟩, ⟨3, 1, 2⟩] 2 1 =
        [⟨1, 1, 0⟩, ⟨2, 1, 1⟩, ⟨3, 1, 2⟩] ∧
      reorder_column [⟨1, 5, 0⟩, ⟨2, 5, 1⟩] 2 1 = [⟨1, 5, 0⟩, ⟨2, 5, 1⟩] :=
  C9_noop [⟨1, 1, 0⟩, ⟨2, 1, 1⟩, ⟨3, 1, 2⟩] 2 ⟨2, 1, 1⟩ (by decide)
    [⟨1, 5, 0⟩, ⟨2, 5, 1⟩] 2 ⟨2, 5, 1⟩ (by decide) (by decide)

/-- Claim C3 (relocate within a container): `update_task` and
`reorder_column` decrement exactly the other items with
`old < position <= new` on a forward move, increment exactly those with
`new <= position < old` on a backward move, set the moved item to the new
position, and the shift preserves the relative order of every pair of
other items (their positions differing from the moved item's old one, as
density guarantees). -/
theorem C3_relocate (ts : List Task) (tid : Nat) (qT : Int) (t0 : Task)
    (hfindT : ts.find? (fun t => t.id == tid) = some t0)
    (hpqT : t0.position ≠ qT)
    (cols : List Column) (cid : Nat) (qC : Int) (c0 : Column)
    (hfindC : cols.find? (fun c => c.id == cid) = some c0)
    (hpqC : c0.position ≠ qC) :
    update_task ts tid qT = ts.map (fun u =>
      if u.id = tid then { u with position := qT }
      else if u.column_id = t0.column_id then
        { u with position := relocShiftFun t0.position qT u.position }
      else u) ∧
    reorder_column cols cid qC = cols.map (fun u =>
      if u.id = cid then { u with position := qC }
      else if u.board_id = c0.board_id then
        { u with position := relocShiftFun c0.position qC u.position }
      else u) ∧
    (∀ x y : Int, x ≠ t0.position → y ≠ t0.position → x < y →
      relocShiftFun t0.position qT x < relocShiftFun t0.position qT y) := by
  refine ⟨?_, ?_, ?_⟩
  · simp only [update_task, hfindT]
    rw [if_neg hpqT]
    refine List.map_congr_left ?_
    intro u _
    by_cases hui : u.id = tid
    · rw [if_pos hui, if_pos hui]
    · rw [if_neg hui, if_neg hui]
      by_cases hc : u.column_id = t0.column_id
      · rw [if_pos hc, if_pos hc]
        unfold relocShiftFun
        split_ifs <;> rfl
      · rw [if_neg hc, if_neg hc]
  · rw [reorder_column_eq_map cols cid qC c0 hfindC]
    refine List.map_congr_left ?_
    intro u _
    by_cases hui : u.id = cid
    · rw [if_pos hui, if_pos hui]
    · rw [if_neg hui, if_neg hui]
      by_cases hb : u.board_id = c0.board_id
      · rw [if_pos hb, if_pos hb]
        unfold relocShiftFun
        split_ifs <;> rfl
      · rw [if_neg hb, if_neg hb]
  · intro x y hx hy hlt
    unfold relocShiftFun
    split_ifs <;> omega

/-- Witness: C3_relocate on the spec's example — `[A@0, B@1, C@2]` with B
relocated to 0 yields `[A@1, B@0, C@2]`, i.e. `[B@0, A@1, C@2]` in display
order — and likewise on a three-column board. -/
theorem C3_witness :
    update_task [⟨1, 1, 0⟩, ⟨2, 1, 1⟩, ⟨3, 1, 2⟩] 2 0 =
        [⟨1, 1, 1⟩, ⟨2, 1, 0⟩, ⟨3, 1, 2⟩] ∧
      reorder_column [⟨1, 5, 0⟩, ⟨2, 5, 1⟩, ⟨3, 5, 2⟩] 2 0 =
        [⟨1, 5, 1⟩, ⟨2, 5, 0⟩, ⟨3, 5, 2⟩] :=
  ⟨(C3_relocate [⟨1, 1, 0⟩, ⟨2, 1, 1⟩, ⟨3, 1, 2⟩] 2 0 ⟨2, 1, 1⟩ (by decide)
      (by decide) [⟨1, 5, 0⟩, ⟨2, 5, 1⟩, ⟨3, 5, 2⟩] 2 0 ⟨2, 5, 1⟩
      (by decide) (by decide)).1.trans (by decide),
   (C3_relocate [⟨1, 1, 0⟩, ⟨2, 1, 1⟩, ⟨3, 1, 2⟩] 2 0 ⟨2, 1, 1⟩ (by decide)
      (by decide) [⟨1, 5, 0⟩, ⟨2, 5, 1⟩, ⟨3, 5, 2⟩] 2 0 ⟨2, 5, 1⟩
      (by decide) (by decide)).2.1.trans (by decide)⟩

/-- In a list with duplicate-free keys, filtering for key `tid` leaves
exactly the one element carrying it. -/
theorem filter_key_singleton {α : Type} (idf : α → Nat) (tid : Nat)
    (l : List α) (t0 : α) (hmem : t0 ∈ l) (hid : idf t0 = tid)
    (hnd : (l.map idf).Nodup) :
    l.filter (fun u => idf u == tid) = [t0] := by
  have h := filter_key_cons idf tid l t0 hmem hid hnd
    (fun u => idf u == tid) (by simp [hid])
  have h2 : (l.filter (fun u => idf u != tid)).filter
      (fun u => idf u == tid) = [] := by
    rw [List.filter_eq_nil_iff]
    intro u hu
    have : idf u ≠ tid := by
      simpa using (List.mem_filter.mp hu).2
    simpa using this
  rw [h2] at h
  exact List.perm_singleton.mp (Multiset.coe_eq_coe.mp h)

/-- Claim C5 (cross-container move exclusivity): a cross-column `move_task`
updates the moved task's `column_id` and `position` together; afterwards
exactly one task carries the moved id, it lies in the destination column at
the requested position — so it appears in the destination's listing and in
no other column's — and the source column's remaining tasks each close the
gap by the one-step decrement above the vacated position. -/
theorem C5_move (ts : List Task) (tid newCol : Nat) (q : Int) (t0 : Task)
    (hfind : ts.find? (fun t => t.id == tid) = some t0)
    (hnd : (ts.map Task.id).Nodup)
    (hcc : t0.column_id ≠ newCol) :
    move_task ts tid newCol q = ts.map (fun u =>
      if u.id = tid then { u with column_id := newCol, position := q }
      else if u.column_id = t0.column_id ∧ u.position > t0.position then
        { u with position := u.position - 1 }
      else if u.column_id = newCol ∧ u.position ≥ q then
        { u with position := u.position + 1 }
      else u) ∧
    ((move_task ts tid newCol q).filter (fun u => u.id == tid)) =
      [{ t0 with column_id := newCol, position := q }] ∧
    (∀ u ∈ tasksInColumn (move_task ts tid newCol q) t0.column_id,
      u.id ≠ tid) ∧
    ({ t0 with column_id := newCol, position := q } ∈
      tasksInColumn (move_task ts tid newCol q) newCol) := by
  obtain ⟨hmem, hid⟩ := find?_task_props hfind
  have hmap : move_task ts tid newCol q = ts.map (fun u =>
      if u.id = tid then { u with column_id := newCol, position := q }
      else if u.column_id = t0.column_id ∧ u.position > t0.position then
        { u with position := u.position - 1 }
      else if u.column_id = newCol ∧ u.position ≥ q then
        { u with position := u.position + 1 }
      else u) := by
    simp only [move_task, hfind]
    rw [if_neg hcc]
  have hidpres : ∀ u : Task,
      (if u.id = tid then { u with column_id := newCol, position := q }
        else if u.column_id = t0.column_id ∧ u.position > t0.position then
          { u with position := u.position - 1 }
        else if u.column_id = newCol ∧ u.position ≥ q then
          { u with position := u.position + 1 }
        else u).id = u.id := by
    intro u
    split_ifs <;> rfl
  refine ⟨hmap, ?_, ?_, ?_⟩
  · rw [hmap, List.filter_map]
    have hcongr : ts.filter ((fun u => u.id == tid) ∘ fun u =>
        if u.id = tid then { u with column_id := newCol, position := q }
        else if u.column_id = t0.column_id ∧ u.position > t0.position then
          { u with position := u.position - 1 }
        else if u.column_id = newCol ∧ u.position ≥ q then
          { u with position := u.position + 1 }
        else u) = ts.filter (fun u => u.id == tid) := by
      refine List.filter_congr ?_
      intro u _
      simp only [Function.comp_apply, hidpres u]
    rw [hcongr, filter_key_singleton Task.id tid ts t0 hmem hid hnd,
      List.map_cons, List.map_nil]
    rw [if_pos hid]
  · intro u hu hti
    obtain ⟨hur, hucol⟩ := List.mem_filter.mp hu
    rw [hmap] at hur
    obtain ⟨t, hmt, hft⟩ := List.mem_map.mp hur
    have htid : t.id = tid := by
      rw [← hti, ← hft, hidpres t]
    have ht0 : t = t0 :=
      eq_of_mem_of_key Task.id hnd hmt hmem (htid.trans hid.symm)
    rw [← hft, ht0, if_pos hid] at hucol
    have hnc : newCol = t0.column_id := by simpa using hucol
    exact hcc hnc.symm
  · rw [hmap]
    unfold tasksInColumn
    refine List.mem_filter.mpr ⟨?_, ?_⟩
    · refine List.mem_map.mpr ⟨t0, hmem, ?_⟩
      simp only [if_pos hid]
    · simp

/-- Witness: C5_move on the spec's example — X holds `[T1@0, T2@1]`, Y is
empty, and moving T1 to Y at 0 leaves X as `[T2@0]` and Y as `[T1@0]`. -/
theorem C5_witness :
    move_task [⟨1, 1, 0⟩, ⟨2, 1, 1⟩] 1 2 0 = [⟨1, 2, 0⟩, ⟨2, 1, 0⟩] ∧
      (move_task [⟨1, 1, 0⟩, ⟨2, 1, 1⟩] 1 2 0).filter (fun u => u.id == 1) =
        [⟨1, 2, 0⟩] :=
  ⟨(C5_move [⟨1, 1, 0⟩, ⟨2, 1, 1⟩] 1 2 0 ⟨1, 1, 0⟩ (by decide) (by decide)
      (by decide)).1.trans (by decide),
   (C5_move [⟨1, 1, 0⟩, ⟨2, 1, 1⟩] 1 2 0 ⟨1, 1, 0⟩ (by decide) (by decide)
      (by decide)).2.1⟩

end Kanban
